import Mathlib

/-!
Verification development for the EMS3 repository (Edited Motif Search).

The repository implements four motif-search engines over the DNA alphabet
`{A,C,G,T}` encoded as `0..3`:
  * V1  (`src/ems1.py`)  — brute-force neighborhood enumeration and counting;
  * V2  (`src/ems2.py` + `MotifTreeFast` in `src/motif_tree.py`) — trie engine;
  * V2m (`src/ems2.py` + `MotifTreeSimple`) — list-based trie engine;
  * V2P (`src/ems2p.py` + `src/motif_data.py`) — bit-packed sort-merge engine.

This file shallowly embeds the relevant code: sequences and motifs are
`List Nat` whose entries are the encoded character codes (`0..3` letters,
`4` = WILDCARD_CODE, `5` stands for the deletion marker character `'-'`,
`4` also stands for the `'*'` wildcard character of `ems2.py` because the
base case of `Ems2._gen_nbrhood_3` replaces `'*'` by `str(WILDCARD_CODE)`
before insertion).  Python big-integers are `Nat`.  Python loops become
structural recursions (with explicit fuel where the source loop is a
while-loop or a two-pointer scan; the fuel arguments are sized so they
never run out on the loop's reachable inputs).
-/

namespace EMS

/-! ### Encoded alphabet constants (`src/utils.py`) -/

/-- Size of `DNA_DOMAIN = "ACGT"`. -/
def domainSize : Nat := 4

/-- Wildcard code `WILDCARD_CODE = len(DNA_DOMAIN) = 4`. -/
def WILDCARD : Nat := 4

/-- Marker standing for the deletion scaffold character `'-'` of `ems2.py`. -/
def DELMARK : Nat := 5

/-! ### Lexicographic order on encoded strings.

Python compares strings of digit characters `'0'..'5'` character by
character, which on the encoded `List Nat` form is exactly the
lexicographic order below (used to model `list.sort()` on motif strings). -/

/-- Lexicographic less-or-equal on encoded strings, as Python string `<=`. -/
def lexLe : List Nat → List Nat → Bool
  | [], _ => true
  | _ :: _, [] => false
  | a :: x, b :: y => if a < b then true else if b < a then false else lexLe x y

/-- Insert into a lexicographically sorted list (helper for `sortLex`). -/
def insLex (a : List Nat) : List (List Nat) → List (List Nat)
  | [] => [a]
  | b :: t => if lexLe a b then a :: b :: t else b :: insLex a t

/-- Model of Python `list.sort()` on encoded motif strings (insertion sort;
the source's sort is only observed through the sorted result). -/
def sortLex (xs : List (List Nat)) : List (List Nat) := xs.foldr insLex []

/-- Insert into an ascending list of packed keys (helper for `sortNat`). -/
def insNat (a : Nat) : List Nat → List Nat
  | [] => [a]
  | b :: t => if a ≤ b then a :: b :: t else b :: insNat a t

/-- Model of `combined_data.sort(key=lambda m: m.data)` in
`_radix_sort_and_intersect` (ascending sort of packed keys). -/
def sortNat (xs : List Nat) : List Nat := xs.foldr insNat []

/-! ### `Motif` bit packing (`src/motif_data.py`)

`Motif.set_from_kmer` packs an encoded string two bits per character,
character `i` at bit position `2*(length-1-i)`; note the `& 0b11` mask.
`Motif.get_kmer` unpacks `k` characters and raises if `k > MAX_L = 32`. -/

/-- The loop body of `Motif.set_from_kmer`: when the remaining suffix is
`c :: t`, the current character sits at shift `2 * (length - 1 - i) =
2 * t.length`; the source ORs `(int(x[i]) & 0b11) << p` into `data`. -/
def packGo : List Nat → Nat → Nat
  | [], d => d
  | c :: t, d => packGo t (d ||| ((c &&& 3) <<< (2 * t.length)))

/-- Model of `Motif.set_from_kmer` (also what `Motif(x)` computes). -/
def setFromKmer (x : List Nat) : Nat := packGo x 0

/-- The loop of `Motif.get_kmer`: position `i` reads bits
`2*(k-1-i)`, so the head of the result reads shift `2*(k-1)`. -/
def unpackGo : Nat → Nat → List Nat
  | 0, _ => []
  | k + 1, d => ((d >>> (2 * k)) &&& 3) :: unpackGo k d

/-- Model of `Motif.get_kmer`, including the `k > MAX_L` guard
(`ValueError` is modelled as `none`). -/
def getKmer (k : Nat) (d : Nat) : Option (List Nat) :=
  if 32 < k then none else some (unpackGo k d)

/-- Mathematical value of the packed word: base-4 Horner value of the
masked digits (used only in proofs about `packGo`). -/
def packVal : List Nat → Nat
  | [] => 0
  | c :: t => (c &&& 3) * 4 ^ t.length + packVal t

/-! ### Edit distance (`utils.edist`, Wagner–Fischer)

The source fills the DP matrix; this is the same function by its defining
recurrence, with explicit fuel (`|s| + |t|` suffices, each recursive call
shrinks the total length). -/

/-- Fueled Levenshtein distance recurrence. -/
def edistF : Nat → List Nat → List Nat → Nat
  | _ + 1, [], t => t.length
  | _ + 1, s, [] => s.length
  | f + 1, x :: xs, y :: ys =>
    min (min (edistF f xs (y :: ys) + 1) (edistF f (x :: xs) ys + 1))
      (edistF f xs ys + (if x = y then 0 else 1))
  | 0, s, t => s.length + t.length

/-- Model of `utils.edist` (Levenshtein distance). -/
def edist (s t : List Nat) : Nat := edistF (s.length + t.length) s t

/-! ### Engine V1 (`src/ems1.py`) -/

/-- Model of `Ems1._generate_neighborhood`: recursion on `errors_remaining`;
returns the list of emitted motifs (the source adds them to a set).
Branch order (pruning, deletions, substitutions, insertions) and all the
guards follow the source; the guards are the integer-arithmetic transcriptions
of the Python comparisons (valid over ℤ, hence over ℕ in this form). -/
def gen1 : Nat → List Nat → Nat → List (List Nat)
  | 0, km, length => if km.length = length then [km] else []
  | e + 1, km, length =>
    let cl := km.length
    if cl + (e + 1) < length ∨ length + (e + 1) < cl then []
    else
      let dels := if 0 < cl ∧ length < cl + (e + 1) then
          (List.range cl).flatMap (fun j => gen1 e (km.eraseIdx j) length)
        else []
      let subs := (List.range cl).flatMap (fun j =>
          ([0, 1, 2, 3].filter (fun k => k ≠ km.getD j 0)).flatMap
            (fun k => gen1 e (km.set j k) length))
      let inss := if cl < length + (e + 1) then
          (List.range (cl + 1)).flatMap (fun j =>
            [0, 1, 2, 3].flatMap (fun k => gen1 e (km.insertIdx j k) length))
        else []
      dels ++ subs ++ inss

/-- The values taken by `q` in the loops `for q in range(-d, d+1)`. -/
def intRangeQ (d : Nat) : List Int := (List.range (2 * d + 1)).map (fun t => (t : Int) - d)

/-- One sequence's candidate set in `Ems1.search` (the Python `set` is
modelled as a deduplicated list). -/
def cand1 (l d : Nat) (seq : List Nat) : List (List Nat) :=
  ((intRangeQ d).flatMap (fun q =>
    let k : Int := (l : Int) + q
    if k ≤ 0 ∨ (seq.length : Int) < k then []
    else
      (List.range (seq.length - k.toNat + 1)).flatMap (fun i =>
        gen1 d ((seq.drop i).take k.toNat) l))).dedup

/-- Association-list lookup, modelling Python `dict.get`. -/
def lookA : List (List Nat × Nat) → List Nat → Option Nat
  | [], _ => none
  | (k, v) :: t, m => if k = m then some v else lookA t m

/-- Association-list store, modelling Python `dict.__setitem__`
(update in place if the key exists, else append). -/
def setA : List (List Nat × Nat) → List Nat → Nat → List (List Nat × Nat)
  | [], m, v => [(m, v)]
  | (k, w) :: t, m, v => if k = m then (k, v) :: t else (k, w) :: setA t m v

/-- Body of the per-candidate fold in `Ems1.search` (lines 77-80): state is
`(motif_counts, last_seq_match)`, `i` is the 1-based sequence id. -/
def ems1Step (i : Nat) (st : List (List Nat × Nat) × List (List Nat × Nat))
    (m : List Nat) : List (List Nat × Nat) × List (List Nat × Nat) :=
  if lookA st.2 m ≠ some i then
    (setA st.1 m ((lookA st.1 m).getD 0 + 1), setA st.2 m i)
  else st

/-- Folding one sequence's candidate set into the global maps. -/
def ems1Fold (st : List (List Nat × Nat) × List (List Nat × Nat)) (i : Nat)
    (cand : List (List Nat)) : List (List Nat × Nat) × List (List Nat × Nat) :=
  cand.foldl (ems1Step i) st

/-- Global-map state after the first `i` sequences have been processed,
given the per-sequence candidate sets. -/
def ems1StateAfter (cands : List (List (List Nat))) (i : Nat) :
    List (List Nat × Nat) × List (List Nat × Nat) :=
  ((cands.take i).enum).foldl (fun st p => ems1Fold st (p.1 + 1) p.2) ([], [])

/-- Final output of `Ems1.search`: motifs whose count equals the number of
sequences, sorted (lines 84-85). -/
def ems1Output (cands : List (List (List Nat))) : List (List Nat) :=
  sortLex (((ems1StateAfter cands cands.length).1.filter
    (fun p => p.2 = cands.length)).map (fun p => p.1))

/-- Engine V1 end to end on encoded sequences. -/
def ems1Search (l d : Nat) (seqs : List (List Nat)) : List (List Nat) :=
  ems1Output (seqs.map (cand1 l d))

/-! ### Shared V2 neighborhood generator (`Ems2._gen_nbrhood*`, `_gen_all`)

The scratch string mutated in place by the source becomes an explicit
argument; `'-'` is `DELMARK = 5`, `'*'` is `WILDCARD = 4` (the base case
of `_gen_nbrhood_3` rewrites `'*'` to `str(WILDCARD_CODE) = '4'`, which is
the identity here). Each function returns the list of motifs inserted. -/

/-- Model of `Ems2._gen_nbrhood_3` (insertions). -/
def gen3 (l : Nat) : Nat → List Nat → List (List Nat)
  | 0, km =>
    let t := km.filter (fun c => c ≠ DELMARK)
    if t.length = l then [t] else []
  | a + 1, km =>
    (List.range (km.length + 1)).flatMap (fun j =>
      if j < km.length ∧ km.getD j 0 = WILDCARD then []
      else gen3 l a (km.insertIdx j WILDCARD))

/-- Model of `Ems2._gen_nbrhood_2` (substitutions). -/
def gen2 (l : Nat) : Nat → Nat → List Nat → List (List Nat)
  | 0, a, km => gen3 l a km
  | s + 1, a, km =>
    (List.range km.length).flatMap (fun j =>
      if km.getD j 0 = DELMARK then []
      else gen2 l s a (km.set j WILDCARD))

/-- Model of `Ems2._gen_nbrhood` (deletions). -/
def genD (l : Nat) : Nat → Nat → Nat → List Nat → List (List Nat)
  | 0, s, a, km => gen2 l s a km
  | dd + 1, s, a, km =>
    (List.range km.length).flatMap (fun j => genD l dd s a (km.set j DELMARK))

/-- The values of `delta` in `range(max(0, q), math.floor((d+q)/2) + 1)`. -/
def deltaRange (d : Nat) (q : Int) : List Nat :=
  let lo : Int := max 0 q
  let hi : Int := (d + q) / 2
  if hi < lo then [] else (List.range (hi.toNat + 1 - lo.toNat)).map (fun t => t + lo.toNat)

/-- Model of `Ems2._gen_all`: all emitted motifs for one sequence, in
source order (`q` outer, then `delta`, then start index `i`). -/
def genAll2 (l d : Nat) (seq : List Nat) : List (List Nat) :=
  let m := seq.length
  (intRangeQ d).flatMap (fun q =>
    let k : Int := (l : Int) + q
    if k ≤ 0 ∨ (m : Int) < k then []
    else
      (deltaRange d q).flatMap (fun delta =>
        let alpha := ((delta : Int) - q).toNat
        let sigma := ((d : Int) - alpha - delta).toNat
        (List.range (m - k.toNat + 1)).flatMap (fun i =>
          genD l delta sigma alpha ((seq.drop i).take k.toNat))))

/-! ### `MotifTreeSimple` (`src/motif_tree.py`, list-based trie)

A node is its list of `(sharing_info, child)` pairs; nodes in this variant
are never physically shared, so a plain inductive value is a faithful model. -/

/-- List-based trie node of `MotifTreeSimple`. -/
inductive STree where
  | node : List (Nat × STree) → STree
deriving Repr

/-- The `children` field of a `MotifTreeSimple` node. -/
def STree.children : STree → List (Nat × STree)
  | .node cs => cs

/-- The fresh root produced by `allocate_node_slow`. -/
def emptyS : STree := .node []

/-- First-fit scan of `MotifTreeSimple.insert_recursive`: recurse into the
first child whose `sharing_info` overlaps `target`, else append a fresh
child with `sharing_info = target` and recurse into it. -/
def insChildren (rec : STree → STree) (target : Nat) : List (Nat × STree) → List (Nat × STree)
  | [] => [(target, rec (STree.node []))]
  | (m, c) :: t =>
    if m &&& target ≠ 0 then (m, rec c) :: t else (m, c) :: insChildren rec target t

/-- Model of `MotifTreeSimple.insert_recursive` (depth counts down as the
remaining motif suffix; inserted motifs have length `max_depth`). -/
def insS : List Nat → STree → STree
  | [], t => t
  | ch :: rest, .node cs =>
    .node (insChildren (insS rest) (if ch = WILDCARD then 15 else 1 <<< ch) cs)

/-- Model of `MotifTreeSimple.intersect_recursive`; fuel is
`max_depth - depth`; `none` models the Python `None` result. -/
def interS : Nat → STree → STree → Option STree
  | 0, t, _ => some t
  | n + 1, .node tcs, .node fcs =>
    if fcs.isEmpty then none
    else
      let newChildren := tcs.flatMap (fun mc =>
        fcs.flatMap (fun fc =>
          let common := mc.1 &&& fc.1
          if common ≠ 0 then
            match interS n mc.2 fc.2 with
            | some r => [(common, STree.node r.children)]
            | none => []
          else []))
      if newChildren.isEmpty then none else some (.node newChildren)

/-- Model of `MotifTreeBase.intersect`: replace the root by the recursion's
result, or a fresh node when it is `None`. -/
def interTop (n : Nat) (t u : STree) : STree := (interS n t u).getD (.node [])

/-- Letters recorded in a sharing mask (bits `0..3`). -/
def maskLetters (m : Nat) : List Nat :=
  (List.range 4).filter (fun i => m &&& (1 <<< i) ≠ 0)

/-- Represented string-set of a `MotifTreeSimple` subtree at remaining
depth `n` (spec §3: union over leaf paths of the product of the letters in
each edge's sharing mask), as a list of encoded strings. -/
def repSL : Nat → STree → List (List Nat)
  | 0, _ => [[]]
  | n + 1, .node cs => cs.flatMap (fun mc =>
      (maskLetters mc.1).flatMap (fun i => (repSL n mc.2).map (i :: ·)))

/-- The per-letter child chosen by `MotifTreeSimple.traverse_recursive`:
`children_map[j]` is overwritten by each child whose mask has bit `j`,
so the last such child in list order wins. -/
def lastWith (j : Nat) (cs : List (Nat × STree)) : Option STree :=
  ((cs.filter (fun mc => mc.1 &&& (1 <<< j) ≠ 0)).getLast?).map (fun mc => mc.2)

/-- Model of `MotifTreeSimple.traverse_recursive`. -/
def travS : Nat → STree → List (List Nat)
  | 0, _ => [[]]
  | n + 1, .node cs =>
    (List.range 4).flatMap (fun i =>
      match lastWith i cs with
      | some c => (travS n c).map (i :: ·)
      | none => [])

/-- Concretizations of a motif: a wildcard position stands for all four
letters (spec §3, candidate symbol semantics). -/
def concrL : List Nat → List (List Nat)
  | [] => [[]]
  | c :: t =>
    (if c = WILDCARD then [0, 1, 2, 3] else [c]).flatMap
      (fun i => (concrL t).map (i :: ·))

/-- Build the tree for one sequence: insert all generated motifs in
emission order (`Ems2._gen_all` into a fresh tree). -/
def buildS (l d : Nat) (seq : List Nat) : STree :=
  (genAll2 l d seq).foldl (fun t m => insS m t) emptyS

/-- The intersection loop of `Ems2.search` for the Simple variant,
also reporting whether the early-termination branch fired. -/
def ems2mGo (l d : Nat) : STree → List (List Nat) → STree × Bool
  | main, [] => (main, false)
  | main, s :: rest =>
    let tmp := buildS l d s
    let main2 := interTop l main tmp
    if main2.children.isEmpty then (main2, true)
    else ems2mGo l d main2 rest

/-- Engine V2m (`ems2m`) end to end on encoded sequences. -/
def ems2mSearch (l d : Nat) (seqs : List (List Nat)) : List (List Nat) :=
  match seqs with
  | [] => []
  | s0 :: rest =>
    match ems2mGo l d (buildS l d s0) rest with
    | (_, true) => []
    | (mfinal, false) => sortLex (travS l mfinal)

/-! ### `MotifTreeFast` (`src/motif_tree.py`, array-based trie)

This variant physically shares one child node across several slots and
mutates nodes in place, so it is embedded with an explicit heap: a node id
is an index into a list of nodes, reads out of range yield a default. -/

/-- Node of `MotifTreeFast`: four child slots and a sharing mask. -/
structure FNode where
  children : List (Option Nat)
  sharing : Nat
deriving Repr, DecidableEq

/-- The fresh node of `allocate_node_fast` (four empty slots). -/
def emptyF : FNode := ⟨[none, none, none, none], 0⟩

/-- Heap of `MotifTreeFast` nodes, indexed by allocation order. -/
abbrev FHeap := List FNode

/-- Read a node from the heap. -/
def readN (h : FHeap) (i : Nat) : FNode := h.getD i emptyF

/-- Overwrite a node in the heap. -/
def writeN (h : FHeap) (i : Nat) (n : FNode) : FHeap := h.set i n

/-- Read child slot `j` of a node. -/
def getSlot (n : FNode) (j : Nat) : Option Nat := n.children.getD j none

/-- Set child slot `j` of a node. -/
def setSlot (n : FNode) (j : Nat) (v : Option Nat) : FNode :=
  ⟨n.children.set j v, n.sharing⟩

/-- Python `a & ~m` on non-negative ints (clear the bits of `m`). -/
def andNot (a m : Nat) : Nat := a - (a &&& m)

/-- The wildcard loop of `MotifTreeFast.insert_recursive`: visit each
non-null slot whose letter is not yet covered by `current_info`, recurse
into it (`ins`), and accumulate the child's `sharing_info`. -/
def wloopG (ins : FHeap → Nat → FHeap) (nid : Nat) : List Nat → FHeap → Nat → FHeap × Nat
  | [], h, info => (h, info)
  | j :: js, h, info =>
    match getSlot (readN h nid) j with
    | none => wloopG ins nid js h info
    | some cid =>
      if info &&& (1 <<< j) ≠ 0 then wloopG ins nid js h info
      else
        let h2 := ins h cid
        wloopG ins nid js h2 (info ||| (readN h2 cid).sharing)

/-- Point the slots named by `mask` at node `v`
(`for j: if remaining & (1 << j): node['children'][j] = new_node`). -/
def setSlots (h : FHeap) (nid : Nat) (mask : Nat) (v : Nat) : FHeap :=
  [0, 1, 2, 3].foldl (fun hh j =>
    if mask &&& (1 <<< j) ≠ 0 then writeN hh nid (setSlot (readN hh nid) j (some v))
    else hh) h

/-- Model of `MotifTreeFast.insert_recursive` (the remaining motif suffix
plays the role of `depth`; heap-returning state passing models the in-place
mutation, including the splitting branch that allocates a fresh empty node
for the concrete letter). -/
def insertF : List Nat → FHeap → Nat → FHeap
  | [], h, _ => h
  | ch :: rest, h, nid =>
    if ch = WILDCARD then
      let st := wloopG (insertF rest) nid [0, 1, 2, 3] h 0
      let remaining := andNot 15 st.2
      if remaining ≠ 0 then
        let newId := st.1.length
        let h2 := st.1 ++ [⟨[none, none, none, none], remaining⟩]
        let h3 := setSlots h2 nid remaining newId
        insertF rest h3 newId
      else st.1
    else
      match getSlot (readN h nid) ch with
      | none =>
        let newId := h.length
        let h2 := h ++ [⟨[none, none, none, none], 1 <<< ch⟩]
        let h3 := writeN h2 nid (setSlot (readN h2 nid) ch (some newId))
        insertF rest h3 newId
      | some cid =>
        let oldInfo := (readN h cid).sharing
        if andNot oldInfo (1 <<< ch) ≠ 0 then
          let newId := h.length
          let h2 := h ++ [⟨[none, none, none, none], 1 <<< ch⟩]
          let h3 := writeN h2 cid ⟨(readN h2 cid).children, andNot oldInfo (1 <<< ch)⟩
          let h4 := writeN h3 nid (setSlot (readN h3 nid) ch (some newId))
          insertF rest h4 newId
        else insertF rest h cid

/-- One slot's contribution in `MotifTreeFast.traverse_recursive`. -/
def slotT (h : FHeap) (nid : Nat) (j : Nat) (r : Nat → List (List Nat)) : List (List Nat) :=
  match getSlot (readN h nid) j with
  | some c => (r c).map (j :: ·)
  | none => []

/-- Model of `MotifTreeFast.traverse_recursive` (slots in letter order). -/
def travF (h : FHeap) : Nat → Nat → List (List Nat)
  | 0, _ => [[]]
  | n + 1, nid =>
    slotT h nid 0 (travF h n) ++ slotT h nid 1 (travF h n) ++
      slotT h nid 2 (travF h n) ++ slotT h nid 3 (travF h n)

/-- Set the slots in `common` of the fresh intersection node to the
intersected child and accumulate its `sharing_info` bits. -/
def setCommonSlots (h : FHeap) (nid : Nat) (common : Nat) (rid : Nat) : FHeap :=
  [0, 1, 2, 3].foldl (fun hh k =>
    if common &&& (1 <<< k) ≠ 0 then
      let nd := readN hh nid
      writeN hh nid ⟨nd.children.set k (some rid), nd.sharing ||| (1 <<< k)⟩
    else hh) h

/-- The slot loop of `MotifTreeFast.intersect_recursive`. Note that
`to_info_original` is read from the *current* heap in each iteration, so a
mutation of a shared child's `sharing_info` by an earlier iteration is
visible — exactly as in the source. -/
def iloopG (rec : FHeap → Nat → Option Nat → FHeap × Option Nat)
    (hFrom : FHeap) (fromId : Nat) (toId : Nat) (newId : Nat) :
    List Nat → FHeap → FHeap
  | [], h => h
  | j :: js, h =>
    match getSlot (readN h toId) j with
    | none => iloopG rec hFrom fromId toId newId js h
    | some tc =>
      let toInfo := (readN h tc).sharing
      let fromChild := getSlot (readN hFrom fromId) j
      let fromInfo := match fromChild with
        | some fc => (readN hFrom fc).sharing
        | none => 0
      if toInfo &&& fromInfo = 0 then iloopG rec hFrom fromId toId newId js h
      else
        let pr := rec h tc fromChild
        match pr.2 with
        | none => iloopG rec hFrom fromId toId newId js pr.1
        | some rid =>
          let h2 := writeN pr.1 rid ⟨(readN pr.1 rid).children, toInfo &&& fromInfo⟩
          let h3 := setCommonSlots h2 newId (toInfo &&& fromInfo) rid
          iloopG rec hFrom fromId toId newId js h3

/-- Does a node have only null slots (`MotifTreeFast._empty_node`)? -/
def allNone (n : FNode) : Bool := n.children.all (fun c => c = none)

/-- Model of `MotifTreeFast.intersect_recursive`: the `to` tree lives in
the returned heap (which also receives the freshly allocated result nodes
and the in-place `sharing_info` overwrites); the `from` tree is read-only. -/
def interF (hFrom : FHeap) : Nat → FHeap → Nat → Option Nat → FHeap × Option Nat
  | 0, h, toId, _ => (h, some toId)
  | _ + 1, h, _, none => (h, none)
  | f + 1, h, toId, some fromId =>
    let newId := h.length
    let h0 := h ++ [emptyF]
    let h1 := iloopG (interF hFrom f) hFrom fromId toId newId [0, 1, 2, 3] h0
    if allNone (readN h1 newId) then (h1, none) else (h1, some newId)

/-- Build the Fast tree for one sequence (root is node `0`). -/
def buildF (l d : Nat) (seq : List Nat) : FHeap :=
  (genAll2 l d seq).foldl (fun h m => insertF m h 0) [emptyF]

/-- One intersection step of `Ems2.search` for the Fast variant:
`self.root = new_root if new_root else self.node_allocator()`. -/
def ems2Step (l d : Nat) (st : FHeap × Nat) (seq : List Nat) : FHeap × Nat :=
  let tmp := buildF l d seq
  let pr := interF tmp l st.1 st.2 (some 0)
  match pr.2 with
  | some r => (pr.1, r)
  | none => (pr.1 ++ [emptyF], pr.1.length)

/-- The sequence loop of `Ems2.search` (Fast variant), counting processed
sequences; the early-exit guard `not root['children']` compares the slot
list against the empty list, exactly as Python truthiness does. -/
def ems2Go (l d : Nat) : FHeap × Nat → Nat → List (List Nat) → (FHeap × Nat) × Nat × Bool
  | st, p, [] => (st, p, false)
  | st, p, s :: rest =>
    let st2 := ems2Step l d st s
    if (readN st2.1 st2.2).children = [] then (st2, p + 1, true)
    else ems2Go l d st2 (p + 1) rest

/-- Engine V2 (`ems2`, Fast trie) end to end on encoded sequences;
also returns the number of sequences processed. -/
def ems2Search (l d : Nat) (seqs : List (List Nat)) : List (List Nat) × Nat :=
  match seqs with
  | [] => ([], 0)
  | s0 :: rest =>
    match ems2Go l d (buildF l d s0, 0) 1 rest with
    | (_, p, true) => ([], p)
    | ((hf, r), p, false) => (sortLex (travF hf l r), p)

/-! ### Engine V2P (`src/ems2p.py`) -/

/-- Model of `NbdGenerator._gen_nbrhood_3` (insertions; no skip rule in
this variant). The emitted value is the pre-packing encoded string. -/
def genP3 (l : Nat) : Nat → List Nat → List (List Nat)
  | 0, x =>
    if x.length = l then
      let s := x.filter (fun c => c ≠ DELMARK)
      if s.length = l then [s] else []
    else []
  | a + 1, x =>
    (List.range (x.length + 1)).flatMap (fun j => genP3 l a (x.insertIdx j WILDCARD))

/-- Model of `NbdGenerator._gen_nbrhood_2` (substitutions). -/
def genP2 (l : Nat) : Nat → Nat → List Nat → List (List Nat)
  | 0, a, x => genP3 l a x
  | s + 1, a, x =>
    (List.range x.length).flatMap (fun j =>
      if x.getD j 0 = DELMARK then [] else genP2 l s a (x.set j WILDCARD))

/-- Model of `NbdGenerator._gen_nbrhood` (physical deletions). -/
def genPD (l : Nat) : Nat → Nat → Nat → List Nat → List (List Nat)
  | 0, s, a, x => genP2 l s a x
  | dd + 1, s, a, x =>
    (List.range x.length).flatMap (fun j => genPD l dd s a (x.eraseIdx j))

/-- Model of `NbdGenerator.generate` for a substring `x` of length `k`:
the `(delta, sigma, alpha)` partition loop with `q = k - l`. -/
def genPgen (l d : Nat) (x : List Nat) : List (List Nat) :=
  let q : Int := (x.length : Int) - l
  (deltaRange d q).flatMap (fun delta =>
    let alpha := ((delta : Int) - q).toNat
    let sigma := ((d : Int) - alpha - delta).toNat
    genPD l delta sigma alpha x)

/-- The `(start_index, k)` work list built in `Worker.__init__`, in
construction order. The source then applies `random.shuffle` with seed 42,
a fixed but unmodelled permutation; the engine-level evaluations below
use work lists of length at most one, on which every permutation is the
identity. -/
def worksFor (l d m : Nat) : List (Nat × Nat) :=
  (((List.range (2 * d + 1)).map (fun t => (l : Int) - d + t)).flatMap (fun k =>
    if 0 < k ∧ k ≤ (m : Int) then
      (List.range (m - k.toNat + 1)).map (fun i => (i, k.toNat))
    else []))

/-- Remove adjacent duplicates, continuing from a last-seen key. -/
def dedupAdjGo (lastv : Nat) : List Nat → List Nat
  | [] => []
  | x :: t => if x = lastv then dedupAdjGo lastv t else x :: dedupAdjGo x t

/-- The duplicate-removal scan of `_radix_sort_and_intersect` (the `-1`
sentinel means the first element is always kept, as all keys are ≥ 0). -/
def dedupAdj : List Nat → List Nat
  | [] => []
  | x :: t => x :: dedupAdjGo x t

/-- The two-pointer intersection loop of `_radix_sort_and_intersect`
(fuel `|a| + |b|` bounds the iterations exactly as in the source). -/
def inter2F : Nat → List Nat → List Nat → List Nat
  | 0, _, _ => []
  | _ + 1, [], _ => []
  | _ + 1, _ :: _, [] => []
  | f + 1, a :: x, b :: y =>
    if a < b then inter2F f x (b :: y)
    else if b < a then inter2F f (a :: x) y
    else a :: inter2F f x y

/-- Two-pointer sorted intersection (`while i < len and j < len`). -/
def inter2 (a b : List Nat) : List Nat := inter2F (a.length + b.length) a b

/-- Model of `_radix_sort_and_intersect` on packed keys. -/
def radixSortAndIntersect (main curr : List Nat) : List Nat :=
  let sorted := dedupAdj (sortNat curr)
  if main = [] then sorted else inter2 main sorted

/-- Model of `Worker.process_segment`: run the generator over the works in
`[start, end)`, pack, sort, dedupe, intersect with `main_array`. -/
def processSegment (l d : Nat) (seq : List Nat) (main : List Nat)
    (works : List (Nat × Nat)) (seg : Nat × Nat) : List Nat :=
  let slice := (works.drop seg.1).take (seg.2 - seg.1)
  let curr := slice.flatMap (fun ik => genPgen l d ((seq.drop ik.1).take ik.2))
  radixSortAndIntersect main (curr.map setFromKmer)

/-- The task partition of `Ems2p._gen_all` (`ind_load = ceil(total/T)`,
contiguous segments, empty segments dropped). -/
def tasksFor (total T : Nat) : List (Nat × Nat) :=
  let ind := (total + T - 1) / T
  ((List.range T).foldl (fun st _ =>
    let pos := min (st.1 + ind) total
    (pos, if st.1 < pos then st.2 ++ [(st.1, pos)] else st.2)) (0, [])).2

/-- The dedup-union merge loop of `Ems2p._merge_motifs`, tracking the last
element appended to `c` (fuel `|a| + |b|` bounds the iterations). -/
def mergeMF : Nat → List Nat → List Nat → Option Nat → List Nat
  | 0, _, _, _ => []
  | _ + 1, [], [], _ => []
  | f + 1, a :: x, [], lastv =>
    if lastv = some a then mergeMF f x [] lastv else a :: mergeMF f x [] (some a)
  | f + 1, [], b :: y, lastv =>
    if lastv = some b then mergeMF f [] y lastv else b :: mergeMF f [] y (some b)
  | f + 1, a :: x, b :: y, lastv =>
    if a < b then
      (if lastv = some a then mergeMF f x (b :: y) lastv
       else a :: mergeMF f x (b :: y) (some a))
    else if b < a then
      (if lastv = some b then mergeMF f (a :: x) y lastv
       else b :: mergeMF f (a :: x) y (some b))
    else
      (if lastv = some a then mergeMF f x y lastv else a :: mergeMF f x y (some a))

/-- Model of `Ems2p._merge_motifs` (two-pointer dedup union). -/
def mergeM (a b : List Nat) : List Nat := mergeMF (a.length + b.length) a b none

/-- One level of the binary merging tree (pair up adjacent arrays). -/
def pairUp : List (List Nat) → List (List Nat)
  | a :: b :: rest => mergeM a b :: pairUp rest
  | [a] => [a]
  | [] => []

/-- The `while len(current_arrays) > 1` reduction loop (fuel
`|arrays|` bounds the number of halving rounds). -/
def mergeTreeF : Nat → List (List Nat) → List (List Nat)
  | 0, ls => ls
  | f + 1, ls => if ls.length ≤ 1 then ls else mergeTreeF f (pairUp ls)

/-- Model of `Ems2p._gen_all` for one sequence with `T` workers: note that
when every shard result is empty the list comprehension filters them all
out and `main_array` is left unchanged (the `elif not self.main_array`
branch only ever re-assigns an already-empty array). -/
def genAllP (T l d : Nat) (main : List Nat) (seq : List Nat) : List Nat :=
  let works := worksFor l d seq.length
  let tasks := tasksFor works.length T
  let results := tasks.map (processSegment l d seq main works)
  let current := results.filter (fun r => r ≠ [])
  match mergeTreeF current.length current with
  | [] => if main = [] then [] else main
  | arr :: _ => arr

/-- The sequence loop of `Ems2p.search`; `none` models the early return
with cleared motifs. -/
def ems2pGo (T l d : Nat) : List Nat → List (List Nat) → Option (List Nat)
  | main, [] => some main
  | main, s :: rest =>
    let m2 := genAllP T l d main s
    if m2 = [] then none else ems2pGo T l d m2 rest

/-- Engine V2P end to end on encoded sequences (final `get_kmer` decode
plus sort; the outer `Option` is the `get_kmer` length guard). -/
def ems2pSearch (T l d : Nat) (seqs : List (List Nat)) : Option (List (List Nat)) :=
  match ems2pGo T l d [] seqs with
  | none => some []
  | some mfinal => (mfinal.mapM (fun key => getKmer l key)).map sortLex

lemma packVal_lt (x : List Nat) : packVal x < 4 ^ x.length := by
  induction x with
  | nil => simp [packVal]
  | cons c t ih =>
    have hc : c &&& 3 ≤ 3 := by
      have : c &&& 3 = c % 4 := by
        have := Nat.and_pow_two_sub_one_eq_mod c 2
        simpa using this
      omega
    have h4 : (0:Nat) < 4 ^ t.length := Nat.pos_pow_of_pos _ (by norm_num)
    calc (c &&& 3) * 4 ^ t.length + packVal t
        < (c &&& 3) * 4 ^ t.length + 4 ^ t.length := by omega
      _ = ((c &&& 3) + 1) * 4 ^ t.length := by ring
      _ ≤ 4 * 4 ^ t.length := by
          exact Nat.mul_le_mul_right _ (by omega)
      _ = 4 ^ (t.length + 1) := by ring
    -- the goal is `... < 4 ^ (c :: t).length`


lemma four_pow (n : Nat) : (4:Nat) ^ n = 2 ^ (2 * n) := by
  rw [Nat.pow_mul]

/-- The packing loop is addition of the Horner value: the OR always lands
in the zeroed low bits. -/
lemma packGo_eq (x : List Nat) : ∀ d : Nat, d % 4 ^ x.length = 0 →
    packGo x d = d + packVal x := by
  induction x with
  | nil => intro d _; simp [packGo, packVal]
  | cons c t ih =>
    intro d hd
    have hfield : (c &&& 3) <<< (2 * t.length) = (c &&& 3) * 4 ^ t.length := by
      rw [Nat.shiftLeft_eq, four_pow]
    have hdvd : 4 ^ (t.length + 1) ∣ d := by
      have : d % 4 ^ (c :: t).length = 0 := hd
      exact Nat.dvd_of_mod_eq_zero (by simpa using this)
    obtain ⟨a, ha⟩ := hdvd
    have hor : d ||| ((c &&& 3) <<< (2 * t.length)) =
        d + (c &&& 3) * 4 ^ t.length := by
      rw [hfield, ha]
      have hc : c &&& 3 ≤ 3 := by
        have : c &&& 3 = c % 4 := by
          have := Nat.and_pow_two_sub_one_eq_mod c 2
          simpa using this
        omega
      have hblt : (c &&& 3) * 4 ^ t.length < 2 ^ (2 * t.length + 2) := by
        have h1 : (c &&& 3) * 4 ^ t.length < 4 * 4 ^ t.length := by
          have h4 : (0:Nat) < 4 ^ t.length := Nat.pos_pow_of_pos _ (by norm_num)
          calc (c &&& 3) * 4 ^ t.length ≤ 3 * 4 ^ t.length :=
                Nat.mul_le_mul_right _ hc
            _ < 4 * 4 ^ t.length := by omega
        have h2 : (4:Nat) * 4 ^ t.length = 2 ^ (2 * t.length + 2) := by
          rw [four_pow]; ring
        omega
      have key := Nat.mul_add_lt_is_or hblt (4 ^ (t.length + 1) * a / 2 ^ (2 * t.length + 2))
      have hconv : 4 ^ (t.length + 1) * a = 2 ^ (2 * t.length + 2) *
          (4 ^ (t.length + 1) * a / 2 ^ (2 * t.length + 2)) := by
        have : (4:Nat) ^ (t.length + 1) = 2 ^ (2 * t.length + 2) := by
          rw [four_pow]; ring_nf
        rw [this]
        rw [Nat.mul_div_cancel_left _ (Nat.pos_pow_of_pos _ (by norm_num))]
      calc 4 ^ (t.length + 1) * a ||| (c &&& 3) * 4 ^ t.length
          = 2 ^ (2 * t.length + 2) * (4 ^ (t.length + 1) * a / 2 ^ (2 * t.length + 2)) |||
            (c &&& 3) * 4 ^ t.length := by rw [← hconv]
        _ = 2 ^ (2 * t.length + 2) * (4 ^ (t.length + 1) * a / 2 ^ (2 * t.length + 2)) +
            (c &&& 3) * 4 ^ t.length := (key).symm
        _ = 4 ^ (t.length + 1) * a + (c &&& 3) * 4 ^ t.length := by rw [← hconv]
    have hrec : (d + (c &&& 3) * 4 ^ t.length) % 4 ^ t.length = 0 := by
      rw [ha]
      have : (4:Nat) ^ (t.length + 1) = 4 ^ t.length * 4 := by ring
      rw [this]
      simp [Nat.mul_mod, Nat.mul_assoc, Nat.add_mul_mod_self_left]
    calc packGo (c :: t) d = packGo t (d ||| ((c &&& 3) <<< (2 * t.length))) := rfl
      _ = packGo t (d + (c &&& 3) * 4 ^ t.length) := by rw [hor]
      _ = d + (c &&& 3) * 4 ^ t.length + packVal t := ih _ hrec
      _ = d + packVal (c :: t) := by simp [packVal]; ring

lemma setFromKmer_eq_packVal (x : List Nat) : setFromKmer x = packVal x := by
  have := packGo_eq x 0 (by simp)
  simpa [setFromKmer] using this

/-- Unpacking ignores any bits at or above position `2*k`. -/
lemma unpackGo_add_high (k : Nat) : ∀ a b : Nat,
    unpackGo k (a * 4 ^ k + b) = unpackGo k b := by
  induction k with
  | zero => intro a b; simp [unpackGo]
  | succ k ih =>
    intro a b
    have hshift : ∀ d : Nat, d >>> (2 * k) = d / 2 ^ (2 * k) := fun d =>
      Nat.shiftRight_eq_div_pow d (2 * k)
    have hsplit : a * 4 ^ (k + 1) + b = (a * 4) * 4 ^ k + b := by ring
    have hhead : ((((a * 4) * 4 ^ k + b) >>> (2 * k)) &&& 3) = ((b >>> (2 * k)) &&& 3) := by
      rw [hshift, hshift]
      have h4k : (4:Nat) ^ k = 2 ^ (2 * k) := four_pow k
      have hdiv : ((a * 4) * 4 ^ k + b) / 2 ^ (2 * k) =
          a * 4 + b / 2 ^ (2 * k) := by
        rw [← h4k]
        rw [Nat.add_comm, Nat.add_mul_div_right _ _ (Nat.pos_pow_of_pos _ (by norm_num))]
        omega
      rw [hdiv]
      have hmod : ∀ y : Nat, y &&& 3 = y % 4 := fun y => by
        have := Nat.and_pow_two_sub_one_eq_mod y 2
        simpa using this
      rw [hmod, hmod]
      omega
    calc unpackGo (k + 1) (a * 4 ^ (k + 1) + b)
        = ((((a * 4) * 4 ^ k + b) >>> (2 * k)) &&& 3) ::
            unpackGo k ((a * 4) * 4 ^ k + b) := by
          rw [hsplit]; rfl
      _ = ((b >>> (2 * k)) &&& 3) :: unpackGo k b := by rw [hhead, ih]
      _ = unpackGo (k + 1) b := rfl

/-- Round-trip at the level of Horner values. -/
lemma unpackGo_packVal (x : List Nat) (hx : ∀ c ∈ x, c < 4) :
    unpackGo x.length (packVal x) = x := by
  induction x with
  | nil => simp [unpackGo]
  | cons c t ih =>
    have hc : c < 4 := hx c (by simp)
    have hmask : c &&& 3 = c := by
      have h := Nat.and_pow_two_sub_one_eq_mod c 2
      have : c % 4 = c := Nat.mod_eq_of_lt hc
      simpa [this] using h
    have hlt := packVal_lt t
    have hhead : (((packVal (c :: t)) >>> (2 * t.length)) &&& 3) = c := by
      have h4k : (4:Nat) ^ t.length = 2 ^ (2 * t.length) := four_pow t.length
      rw [Nat.shiftRight_eq_div_pow]
      have hdiv : packVal (c :: t) / 2 ^ (2 * t.length) = c := by
        show ((c &&& 3) * 4 ^ t.length + packVal t) / 2 ^ (2 * t.length) = c
        rw [hmask, ← h4k]
        rw [Nat.add_comm, Nat.add_mul_div_right _ _ (Nat.pos_pow_of_pos _ (by norm_num))]
        rw [Nat.div_eq_of_lt hlt]
        omega
      rw [hdiv]
      have := Nat.and_pow_two_sub_one_eq_mod c 2
      simp only [show (2:Nat) ^ 2 - 1 = 3 by norm_num] at this
      rw [this, Nat.mod_eq_of_lt hc]
    have htail : unpackGo t.length (packVal (c :: t)) = t := by
      show unpackGo t.length ((c &&& 3) * 4 ^ t.length + packVal t) = t
      rw [unpackGo_add_high, ih (fun d hd => hx d (by simp [hd]))]
    calc unpackGo (c :: t).length (packVal (c :: t))
        = (((packVal (c :: t)) >>> (2 * t.length)) &&& 3) ::
            unpackGo t.length (packVal (c :: t)) := rfl
      _ = c :: t := by rw [hhead, htail]

/-- The packing loop only looks at each character through `· &&& 3`. -/
lemma packGo_congr : ∀ (x y : List Nat), x.length = y.length →
    (∀ i, (x.getD i 0) &&& 3 = (y.getD i 0) &&& 3) →
    ∀ d, packGo x d = packGo y d
  | [], [], _, _, _ => rfl
  | [], b :: s, hlen, _, _ => by simp at hlen
  | c :: t, [], hlen, _, _ => by simp at hlen
  | c :: t, b :: s, hlen, hpt, d => by
    have hlen' : t.length = s.length := by simpa using hlen
    have hhead : c &&& 3 = b &&& 3 := by simpa using hpt 0
    have htail : ∀ i, (t.getD i 0) &&& 3 = (s.getD i 0) &&& 3 := fun i => by
      simpa using hpt (i + 1)
    calc packGo (c :: t) d
        = packGo t (d ||| ((c &&& 3) <<< (2 * t.length))) := rfl
      _ = packGo s (d ||| ((b &&& 3) <<< (2 * s.length))) := by
          rw [hhead, hlen']
          exact packGo_congr t s hlen' htail _
      _ = packGo (b :: s) d := rfl

/-! ## Claim C1 — cross-engine equivalence -/

/-- C1: the four engines are claimed to produce identical sorted motif
lists on every input and valid `(l, d)`. They do not: on the single
encoded sequence `[0]` (the one-letter file `A`) with `l = 1`, `d = 1`,
V1 outputs `{C,G,T}` (its enumeration spends exactly `d` operations, so
the distance-0 motif `A` is missed), V2 and V2m output `{A,C,G,T}`, and
V2P outputs `{A}` (its wildcard emission packs as the letter `A`). -/
theorem c1_engine_outputs_differ :
    ems1Search 1 1 [[0]] = [[1], [2], [3]] ∧
    (ems2Search 1 1 [[0]]).1 = [[0], [1], [2], [3]] ∧
    ems2mSearch 1 1 [[0]] = [[0], [1], [2], [3]] ∧
    ems2pSearch 1 1 1 [[0]] = some [[0]] ∧
    ems1Search 1 1 [[0]] ≠ ems2mSearch 1 1 [[0]] := by
  refine ⟨by decide, by decide, by decide, by decide, by decide⟩

/-! ## Claim C2 — neighborhood enumeration equals the edit-distance ball -/

/-- C2: the emitted neighborhood of a substring is claimed to equal
`{y : |y| = l, edit_distance(x, y) ≤ d}` for all three recursions. For
V1's recursion at `x = [0]`, `l = 1`, `d = 1` the emitted set is
`{[1], [2], [3]}`; the string `[0]` itself has length 1 and edit distance
`0 ≤ 1` but is never emitted, because `Ems1._generate_neighborhood` only
emits after exactly `errors_remaining` operations and a substitution must
change the character. -/
theorem c2_v1_neighborhood_misses_ball :
    gen1 1 [0] 1 = [[1], [2], [3]] ∧
    edist [0] [0] = 0 ∧ ([0] : List Nat).length = 1 ∧
    [0] ∉ gen1 1 [0] 1 := by
  refine ⟨by decide, by decide, by decide, by decide⟩

/-! ## Claim C3 — V2P eager wildcard expansion -/

/-- C3: V2P is claimed to expand every wildcard into one concrete emission
per alphabet letter before packing. In fact `NbdGenerator._gen_nbrhood_3`
appends a single `Motif` built from the scaffold string itself: for
`x = [0]`, `l = 1`, `d = 1` the emitted string is `[4]` (it contains
`WILDCARD = 4`), only one packed key is produced, and that key collides
with the key of the concrete letter `[0]` because `set_from_kmer` masks
each character with `& 0b11`. -/
theorem c3_wildcard_reaches_packed_key :
    genPgen 1 1 [0] = [[WILDCARD]] ∧
    (genPgen 1 1 [0]).map setFromKmer = [0] ∧
    setFromKmer [WILDCARD] = setFromKmer [0] := by
  refine ⟨by decide, by decide, by decide⟩

/-! ## Claim C4 — V2P per-sequence intersection update -/

/-- C4: after a sequence with index `i ≥ 1`, `main_array` is claimed to
become the previous `main_array` intersected with the sequence's candidate
set — in particular empty when that intersection is empty. With
`main_array = [0]` (the key of `A`, from sequence `[0]`), next sequence
`[1]` (`C`), `l = 1`, `d = 0`, one worker: the sequence's candidate key
set is `[1]`, the intersection is empty, every shard result is filtered
out by `[r for r in results if r]`, no assignment happens, and
`main_array` stays `[0]`; the full search then outputs `[A]` instead of
the empty list. -/
theorem c4_empty_intersection_keeps_main_array :
    radixSortAndIntersect [] ((genPgen 1 0 [1]).map setFromKmer) = [1] ∧
    inter2 [0] [1] = [] ∧
    genAllP 1 1 0 [0] [1] = [0] ∧
    ems2pSearch 1 1 0 [[0], [1]] = some [[0]] := by
  refine ⟨by decide, by decide, by decide, by decide⟩

/-! ## Claim C5 — early termination -/

/-- C5: every engine is claimed to stop processing once the running
candidate set is empty. For the Fast-trie engine (`ems2`) the guard
`not self.main_tree.root['children']` tests Python truthiness of the slot
list, which for `allocate_node_fast` is a list of four `None`s and thus
always truthy: on `l = 1`, `d = 0` with sequences `A, C` the candidate
set is empty after sequence index 1 (the output is empty and 2 sequences
were processed), yet with sequences `A, C, A` the engine still processes
the third sequence (processed count 3 instead of stopping at 2). -/
theorem c5_fast_engine_processes_after_empty :
    ems2Search 1 0 [[0], [1]] = ([], 2) ∧
    ems2Search 1 0 [[0], [1], [0]] = ([], 3) := by
  refine ⟨by decide, by decide⟩

/-! ## Claim C6 — trie insertion adds exactly the concretizations -/

/-- C6 counterexample: inserting the wildcard motif `[4]` into the
`MotifTreeSimple` tree that represents `{A}` is claimed to make the
represented set `{A} ∪ {A,C,G,T}`; in fact the first-fit scan recurses
only into the existing child with mask `{A}`, so the tree still
represents `{A}` and the concretization `[1]` (`C`) is missing. -/
theorem c6_insert_union_counterexample :
    [1] ∈ concrL [WILDCARD] ∧
    repSL 1 (insS [0] emptyS) = [[0]] ∧
    repSL 1 (insS [WILDCARD] (insS [0] emptyS)) = [[0]] ∧
    [1] ∉ repSL 1 (insS [WILDCARD] (insS [0] emptyS)) := by
  refine ⟨by decide, by decide, by decide, by decide⟩

/-! ## Claim C7 — trie intersection computes exactly `A ∩ B` -/

/-- C7 counterexample (Fast variant): the tree `T` built by inserting the
wildcard motif represents `{A,C,G,T}` through one physical leaf shared by
all four slots; `U` represents `{A,C}`. During `T.intersect(U)` the slot
loop at `j = 0` returns the shared leaf by reference and overwrites its
`sharing_info` with `common = {A}`, so the `j = 1` iteration reads the
mutated mask, finds no overlap with `{C}`, and the result represents
`{A}` instead of `{A,C}`. -/
theorem c7_fast_intersect_counterexample :
    travF (insertF [WILDCARD] [emptyF] 0) 1 0 = [[0], [1], [2], [3]] ∧
    travF (insertF [1] (insertF [0] [emptyF] 0) 0) 1 0 = [[0], [1]] ∧
    ((interF (insertF [1] (insertF [0] [emptyF] 0) 0) 1
        (insertF [WILDCARD] [emptyF] 0) 0 (some 0)).2.map
      (fun r => travF (interF (insertF [1] (insertF [0] [emptyF] 0) 0) 1
        (insertF [WILDCARD] [emptyF] 0) 0 (some 0)).1 1 r)) = some [[0]] := by
  refine ⟨by decide, by decide, by decide⟩

/-! ### Helper lemmas for the Simple-trie represented set -/

lemma STree.node_children (r : STree) : STree.node r.children = r := by
  cases r; rfl

lemma repSL_node_nil {n : Nat} (hn : n ≠ 0) : repSL n (.node []) = [] := by
  cases n with
  | zero => exact absurd rfl hn
  | succ n => simp [repSL]

lemma mem_maskLetters {m i : Nat} :
    i ∈ maskLetters m ↔ i < 4 ∧ m.testBit i = true := by
  have h2 : (1 : Nat) <<< i = 2 ^ i := by
    rw [Nat.shiftLeft_eq, one_mul]
  have hand : m &&& (1 <<< i) ≠ 0 ↔ m.testBit i = true := by
    rw [h2, Nat.and_two_pow]
    cases h : m.testBit i <;> simp [h]
  simp only [maskLetters, List.mem_filter, List.mem_range, decide_eq_true_eq]
  exact and_congr Iff.rfl hand

lemma maskLetters_and {a b i : Nat} :
    i ∈ maskLetters (a &&& b) ↔ i ∈ maskLetters a ∧ i ∈ maskLetters b := by
  simp only [mem_maskLetters, Nat.testBit_and, Bool.and_eq_true]
  tauto

lemma maskLetters_ne_zero {m i : Nat} (h : i ∈ maskLetters m) : m ≠ 0 := by
  rcases mem_maskLetters.mp h with ⟨-, hbit⟩
  intro h0
  subst h0
  simp [Nat.zero_testBit] at hbit

lemma mem_repSL_succ {n : Nat} {cs : List (Nat × STree)} {s : List Nat} :
    s ∈ repSL (n + 1) (.node cs) ↔
      ∃ mc ∈ cs, ∃ i ∈ maskLetters mc.1, ∃ s1 ∈ repSL n mc.2, s = i :: s1 := by
  simp only [repSL, List.mem_flatMap, List.mem_map]
  constructor
  · rintro ⟨mc, hmc, i, hi, s1, hs1, rfl⟩
    exact ⟨mc, hmc, i, hi, s1, hs1, rfl⟩
  · rintro ⟨mc, hmc, i, hi, s1, hs1, rfl⟩
    exact ⟨mc, hmc, i, hi, s1, hs1, rfl⟩

lemma interS_zero (t u : STree) : interS 0 t u = some t := rfl

/-- Membership in the candidate child list built by one `(to, from)` pair
of `MotifTreeSimple.intersect_recursive`. -/
lemma mem_pairEntry {n : Nat} {ta fb : Nat × STree} {mc : Nat × STree} :
    (mc ∈ if ta.1 &&& fb.1 ≠ 0 then
        (match interS n ta.2 fb.2 with
          | some r => [(ta.1 &&& fb.1, STree.node r.children)]
          | none => [])
      else []) ↔
    (ta.1 &&& fb.1 ≠ 0 ∧ ∃ r, interS n ta.2 fb.2 = some r ∧
      mc = (ta.1 &&& fb.1, STree.node r.children)) := by
  by_cases hc : ta.1 &&& fb.1 ≠ 0
  · rw [if_pos hc]
    cases h : interS n ta.2 fb.2 with
    | none => simp [hc, h]
    | some r => simp [hc, h]
  · rw [if_neg hc]
    simp [hc]

/-! ## Claim C7 (amended part) — Simple-trie intersection is exact -/

/-- C7 amended: for `MotifTreeSimple`, `intersect` computes exactly the
set intersection: a string is represented by the tree after
`T.intersect(U)` (with `max_depth - depth = n` remaining levels) iff it is
represented by both `T` and `U`. -/
theorem c7_simple_intersect_exact :
    ∀ (n : Nat) (t u : STree) (s : List Nat),
      s ∈ repSL n (interTop n t u) ↔ (s ∈ repSL n t ∧ s ∈ repSL n u) := by
  intro n
  induction n with
  | zero =>
    intro t u s
    simp [interTop, interS_zero, repSL]
  | succ n ih =>
    intro t u s
    obtain ⟨tcs⟩ := t
    obtain ⟨fcs⟩ := u
    by_cases hf : fcs.isEmpty
    · have hfe : fcs = [] := by simpa [List.isEmpty_iff] using hf
      subst hfe
      simp [interTop, interS, repSL_node_nil, repSL]
    · have hstep : interS (n + 1) (.node tcs) (.node fcs) =
          (if (tcs.flatMap (fun mc =>
            fcs.flatMap (fun fc =>
              if mc.1 &&& fc.1 ≠ 0 then
                (match interS n mc.2 fc.2 with
                  | some r => [(mc.1 &&& fc.1, STree.node r.children)]
                  | none => [])
              else []))).isEmpty then none
          else some (.node (tcs.flatMap (fun mc =>
            fcs.flatMap (fun fc =>
              if mc.1 &&& fc.1 ≠ 0 then
                (match interS n mc.2 fc.2 with
                  | some r => [(mc.1 &&& fc.1, STree.node r.children)]
                  | none => [])
              else []))))) := by
        rw [interS, if_neg (by simpa using hf)]
      set nc := tcs.flatMap (fun mc =>
        fcs.flatMap (fun fc =>
          if mc.1 &&& fc.1 ≠ 0 then
            (match interS n mc.2 fc.2 with
              | some r => [(mc.1 &&& fc.1, STree.node r.children)]
              | none => [])
          else [])) with hnc
      have mem_nc : ∀ mc : Nat × STree, mc ∈ nc ↔
          ∃ ta ∈ tcs, ∃ fb ∈ fcs, (ta.1 &&& fb.1 ≠ 0 ∧ ∃ r,
            interS n ta.2 fb.2 = some r ∧
            mc = (ta.1 &&& fb.1, STree.node r.children)) := by
        intro mc
        rw [hnc]
        simp only [List.mem_flatMap]
        constructor
        · rintro ⟨ta, hta, fb, hfb, hentry⟩
          exact ⟨ta, hta, fb, hfb, mem_pairEntry.mp hentry⟩
        · rintro ⟨ta, hta, fb, hfb, hprop⟩
          exact ⟨ta, hta, fb, hfb, mem_pairEntry.mpr hprop⟩
      have hrhs : (s ∈ repSL (n + 1) (.node tcs) ∧ s ∈ repSL (n + 1) (.node fcs)) ↔
          ∃ ta ∈ tcs, ∃ fb ∈ fcs, ∃ i, i ∈ maskLetters ta.1 ∧ i ∈ maskLetters fb.1 ∧
            ∃ s1, s1 ∈ repSL n ta.2 ∧ s1 ∈ repSL n fb.2 ∧ s = i :: s1 := by
        constructor
        · rintro ⟨h1, h2⟩
          rcases mem_repSL_succ.mp h1 with ⟨ta, hta, i, hi, s1, hs1, rfl⟩
          rcases mem_repSL_succ.mp h2 with ⟨fb, hfb, i2, hi2, s2, hs2, heq⟩
          injection heq with h1 h2
          subst h1
          subst h2
          exact ⟨ta, hta, fb, hfb, i, hi, hi2, s1, hs1, hs2, rfl⟩
        · rintro ⟨ta, hta, fb, hfb, i, hi1, hi2, s1, hsa, hsb, rfl⟩
          exact ⟨mem_repSL_succ.mpr ⟨ta, hta, i, hi1, s1, hsa, rfl⟩,
            mem_repSL_succ.mpr ⟨fb, hfb, i, hi2, s1, hsb, rfl⟩⟩
      rw [hrhs]
      by_cases hempty : nc.isEmpty
      · have hlhs : repSL (n + 1) (interTop (n + 1) (.node tcs) (.node fcs)) = [] := by
          unfold interTop
          rw [hstep, if_pos hempty]
          simp [repSL]
        rw [hlhs]
        simp only [List.not_mem_nil, false_iff]
        rintro ⟨ta, hta, fb, hfb, i, hi1, hi2, s1, hsa, hsb, rfl⟩
        have hcom : i ∈ maskLetters (ta.1 &&& fb.1) := maskLetters_and.mpr ⟨hi1, hi2⟩
        have hcne : ta.1 &&& fb.1 ≠ 0 := maskLetters_ne_zero hcom
        have hsub : s1 ∈ repSL n (interTop n ta.2 fb.2) := (ih ta.2 fb.2 s1).mpr ⟨hsa, hsb⟩
        cases hr : interS n ta.2 fb.2 with
        | none =>
          have hn0 : n ≠ 0 := by
            intro h0
            subst h0
            rw [interS_zero] at hr
            exact Option.noConfusion hr
          rw [interTop, hr] at hsub
          simp only [Option.getD_none] at hsub
          rw [repSL_node_nil hn0] at hsub
          exact List.not_mem_nil _ hsub
        | some r =>
          have hmem : (ta.1 &&& fb.1, STree.node r.children) ∈ nc :=
            (mem_nc _).mpr ⟨ta, hta, fb, hfb, hcne, r, hr, rfl⟩
          rw [List.isEmpty_iff] at hempty
          rw [hempty] at hmem
          exact List.not_mem_nil _ hmem
      · have hlhs : interTop (n + 1) (.node tcs) (.node fcs) = .node nc := by
          unfold interTop
          rw [hstep, if_neg hempty]
          rfl
        rw [hlhs, mem_repSL_succ]
        constructor
        · rintro ⟨mc, hmc, i, hi, s1, hs1, rfl⟩
          rcases (mem_nc mc).mp hmc with ⟨ta, hta, fb, hfb, hcne, r, hr, rfl⟩
          have hi12 := maskLetters_and.mp hi
          have hsub : s1 ∈ repSL n (interTop n ta.2 fb.2) := by
            rw [interTop, hr]
            simpa [STree.node_children] using hs1
          have := (ih ta.2 fb.2 s1).mp hsub
          exact ⟨ta, hta, fb, hfb, i, hi12.1, hi12.2, s1, this.1, this.2, rfl⟩
        · rintro ⟨ta, hta, fb, hfb, i, hi1, hi2, s1, hsa, hsb, rfl⟩
          have hcom : i ∈ maskLetters (ta.1 &&& fb.1) := maskLetters_and.mpr ⟨hi1, hi2⟩
          have hcne : ta.1 &&& fb.1 ≠ 0 := maskLetters_ne_zero hcom
          have hsub : s1 ∈ repSL n (interTop n ta.2 fb.2) := (ih ta.2 fb.2 s1).mpr ⟨hsa, hsb⟩
          cases hr : interS n ta.2 fb.2 with
          | none =>
            have hn0 : n ≠ 0 := by
              intro h0
              subst h0
              rw [interS_zero] at hr
              exact Option.noConfusion hr
            rw [interTop, hr] at hsub
            simp only [Option.getD_none] at hsub
            rw [repSL_node_nil hn0] at hsub
            exact absurd hsub (List.not_mem_nil _)
          | some r =>
            refine ⟨(ta.1 &&& fb.1, STree.node r.children),
              (mem_nc _).mpr ⟨ta, hta, fb, hfb, hcne, r, hr, rfl⟩, i, hcom, s1, ?_, rfl⟩
            rw [interTop, hr] at hsub
            simpa [STree.node_children] using hsub

/-! ### Heap lemmas for the Fast trie -/

lemma readN_append {h : FHeap} (x : FNode) {k : Nat} (hk : k < h.length) :
    readN (h ++ [x]) k = readN h k := by
  simp [readN, List.getElem?_append_left hk]

lemma readN_concat_self (h : FHeap) (x : FNode) : readN (h ++ [x]) h.length = x := by
  simp [readN, List.getElem?_concat_length]

lemma readN_writeN_self {h : FHeap} {k : Nat} (n : FNode) (hk : k < h.length) :
    readN (writeN h k n) k = n := by
  simp [readN, writeN, List.getElem?_set_self hk]

lemma readN_writeN_ne {h : FHeap} {k j : Nat} (n : FNode) (hne : j ≠ k) :
    readN (writeN h k n) j = readN h j := by
  simp [readN, writeN, List.getElem?_set_ne (Ne.symm hne)]

lemma length_writeN (h : FHeap) (k : Nat) (n : FNode) :
    (writeN h k n).length = h.length := by
  simp [writeN]

lemma writeN_writeN (h : FHeap) (k : Nat) (a b : FNode) :
    writeN (writeN h k a) k b = writeN h k b := by
  simp [writeN, List.set_set]

lemma getSlot_fresh {n : FNode} (hch : n.children = [none, none, none, none]) (j : Nat) :
    getSlot n j = none := by
  unfold getSlot
  rw [hch]
  match j with
  | 0 => rfl
  | 1 => rfl
  | 2 => rfl
  | 3 => rfl
  | j + 4 => simp

lemma length_setSlots (h : FHeap) (nid mask v : Nat) :
    (setSlots h nid mask v).length = h.length := by
  unfold setSlots
  simp only [List.foldl_cons, List.foldl_nil]
  split_ifs <;> simp [length_writeN]

lemma readN_setSlots_ne {h : FHeap} {nid mask v k : Nat} (hne : k ≠ nid) :
    readN (setSlots h nid mask v) k = readN h k := by
  unfold setSlots
  simp only [List.foldl_cons, List.foldl_nil]
  split_ifs <;> simp [readN_writeN_ne _ hne]

lemma readN_setSlots_full {h : FHeap} {nid v : Nat} (hk : nid < h.length)
    (hch : (readN h nid).children = [none, none, none, none]) :
    readN (setSlots h nid 15 v) nid =
      ⟨[some v, some v, some v, some v], (readN h nid).sharing⟩ := by
  unfold setSlots
  simp only [List.foldl_cons, List.foldl_nil]
  rw [if_pos (by decide), if_pos (by decide), if_pos (by decide), if_pos (by decide)]
  simp only [readN_writeN_self, length_writeN, writeN_writeN, hk]
  simp [setSlot, hch]

/-- Inserting a motif below a fresh (all-slots-empty) Fast node only
touches that node and newly allocated ones, and makes the subtree under it
traverse to exactly the motif's concretizations. -/
lemma insertF_fresh : ∀ (motif : List Nat) (h : FHeap) (nid : Nat),
    (∀ c ∈ motif, c ≤ 4) → nid < h.length →
    (readN h nid).children = [none, none, none, none] →
    (∀ k, k < h.length → k ≠ nid → readN (insertF motif h nid) k = readN h k) ∧
    h.length ≤ (insertF motif h nid).length ∧
    travF (insertF motif h nid) motif.length nid = concrL motif := by
  intro motif
  induction motif with
  | nil =>
    intro h nid _ hk hch
    refine ⟨fun k _ _ => rfl, le_refl _, ?_⟩
    simp [insertF, travF, concrL]
  | cons ch rest ih =>
    intro h nid hval hk hch
    have hvrest : ∀ c ∈ rest, c ≤ 4 := fun c hc => hval c (by simp [hc])
    by_cases hch4 : ch = WILDCARD
    · subst hch4
      have hw : wloopG (insertF rest) nid [0, 1, 2, 3] h 0 = (h, 0) := by
        simp [wloopG, getSlot_fresh hch]
      have hred : insertF (WILDCARD :: rest) h nid =
          insertF rest (setSlots (h ++ [⟨[none, none, none, none], 15⟩]) nid 15 h.length)
            h.length := by
        simp [insertF, hw, andNot]
      set x : FNode := ⟨[none, none, none, none], 15⟩ with hx
      set h2 : FHeap := h ++ [x] with hh2
      set h3 : FHeap := setSlots h2 nid 15 h.length with hh3
      have hlen2 : h2.length = h.length + 1 := by simp [hh2]
      have hlen3 : h3.length = h.length + 1 := by rw [hh3, length_setSlots, hlen2]
      have hnidlt2 : nid < h2.length := by omega
      have hnidne : nid ≠ h.length := by omega
      have hfresh3 : (readN h3 h.length).children = [none, none, none, none] := by
        rw [hh3, readN_setSlots_ne (Ne.symm hnidne), hh2, readN_concat_self]
      obtain ⟨ihframe, ihlen, ihtrav⟩ :=
        ih h3 h.length hvrest (by omega) hfresh3
      have hch2 : (readN h2 nid).children = [none, none, none, none] := by
        rw [hh2, readN_append x hk]
        exact hch
      have hnode : readN (insertF rest h3 h.length) nid =
          ⟨[some h.length, some h.length, some h.length, some h.length],
            (readN h2 nid).sharing⟩ := by
        rw [ihframe nid (by omega) hnidne, hh3, readN_setSlots_full hnidlt2 hch2]
      refine ⟨?_, ?_, ?_⟩
      · intro k hklt hkne
        rw [hred, ihframe k (by omega) (by omega), hh3,
          readN_setSlots_ne hkne, hh2, readN_append x hklt]
      · rw [hred]
        omega
      · rw [hred]
        show travF (insertF rest h3 h.length) (rest.length + 1) nid = concrL (WILDCARD :: rest)
        rw [travF]
        simp [slotT, getSlot, hnode, ihtrav, concrL]
    · have hchlt : ch < 4 := by
        have := hval ch (by simp)
        simp only [WILDCARD] at hch4
        omega
      have hslot : getSlot (readN h nid) ch = none := getSlot_fresh hch ch
      have hred : insertF (ch :: rest) h nid =
          insertF rest
            (writeN (h ++ [⟨[none, none, none, none], 1 <<< ch⟩]) nid
              (setSlot (readN (h ++ [⟨[none, none, none, none], 1 <<< ch⟩]) nid) ch
                (some h.length)))
            h.length := by
        simp [insertF, hch4, hslot]
      set x : FNode := ⟨[none, none, none, none], 1 <<< ch⟩ with hx
      set h2 : FHeap := h ++ [x] with hh2
      set h3 : FHeap := writeN h2 nid (setSlot (readN h2 nid) ch (some h.length)) with hh3
      have hlen2 : h2.length = h.length + 1 := by simp [hh2]
      have hlen3 : h3.length = h.length + 1 := by rw [hh3, length_writeN, hlen2]
      have hnidlt2 : nid < h2.length := by omega
      have hnidne : nid ≠ h.length := by omega
      have hfresh3 : (readN h3 h.length).children = [none, none, none, none] := by
        rw [hh3, readN_writeN_ne _ (Ne.symm hnidne), hh2, readN_concat_self]
      obtain ⟨ihframe, ihlen, ihtrav⟩ :=
        ih h3 h.length hvrest (by omega) hfresh3
      have hch2 : readN h2 nid = readN h nid := by
        rw [hh2, readN_append x hk]
      have hnode : readN (insertF rest h3 h.length) nid =
          setSlot (readN h nid) ch (some h.length) := by
        rw [ihframe nid (by omega) hnidne, hh3, readN_writeN_self _ hnidlt2, hch2]
      refine ⟨?_, ?_, ?_⟩
      · intro k hklt hkne
        rw [hred, ihframe k (by omega) (by omega), hh3,
          readN_writeN_ne _ hkne, hh2, readN_append x hklt]
      · rw [hred]
        omega
      · rw [hred]
        show travF (insertF rest h3 h.length) (rest.length + 1) nid = concrL (ch :: rest)
        rw [travF]
        have hcne : ch ≠ WILDCARD := hch4
        interval_cases ch <;>
          simp [slotT, getSlot, setSlot, hnode, hch, ihtrav, concrL, WILDCARD]

/-- Inserting a motif into the empty Simple tree represents exactly its
concretizations. -/
lemma insS_empty (motif : List Nat) (hval : ∀ c ∈ motif, c ≤ 4) :
    repSL motif.length (insS motif emptyS) = concrL motif := by
  induction motif with
  | nil => simp [insS, emptyS, repSL, concrL]
  | cons ch rest ih =>
    have hvrest : ∀ c ∈ rest, c ≤ 4 := fun c hc => hval c (by simp [hc])
    have ih2 := ih hvrest
    simp only [emptyS] at ih2
    by_cases hch4 : ch = WILDCARD
    · subst hch4
      have hmask : maskLetters 15 = [0, 1, 2, 3] := by decide
      simp [insS, insChildren, emptyS, repSL, hmask, ih2, concrL]
    · have hchlt : ch < 4 := by
        have := hval ch (by simp)
        simp only [WILDCARD] at hch4
        omega
      have hne : ch ≠ WILDCARD := hch4
      interval_cases ch <;>
        simp [insS, insChildren, emptyS, repSL, ih2, concrL, WILDCARD,
          show maskLetters 1 = [0] from by decide,
          show maskLetters 2 = [1] from by decide,
          show maskLetters 4 = [2] from by decide,
          show maskLetters 8 = [3] from by decide]

/-! ## Claim C6 (amended part) — insertion into an empty tree is exact -/

/-- C6 amended: for both trie variants, inserting a single motif into the
empty tree produces a tree whose represented set (for the Fast variant:
the traversal, which enumerates slot letters) is exactly the set of
concretizations of the motif. (For nonempty trees the original claim is
false — see the counterexample theorem.) -/
theorem c6_insert_empty_exact (motif : List Nat) (hval : ∀ c ∈ motif, c ≤ 4) :
    repSL motif.length (insS motif emptyS) = concrL motif ∧
    travF (insertF motif [emptyF] 0) motif.length 0 = concrL motif :=
  ⟨insS_empty motif hval,
   (insertF_fresh motif [emptyF] 0 hval (by decide) (by decide)).2.2⟩

/-- Witness for the amended C6 at the motif `[0, WILDCARD]`. -/
theorem c6_insert_empty_exact_witness :
    (∀ c ∈ ([0, WILDCARD] : List Nat), c ≤ 4) ∧
    (repSL ([0, WILDCARD] : List Nat).length (insS [0, WILDCARD] emptyS) =
        concrL [0, WILDCARD] ∧
      travF (insertF [0, WILDCARD] [emptyF] 0) ([0, WILDCARD] : List Nat).length 0 =
        concrL [0, WILDCARD]) :=
  ⟨by decide, c6_insert_empty_exact [0, WILDCARD] (by decide)⟩

/-! ## Claim C8 — pack/unpack round-trip -/

/-- C8: for every encoded string over the alphabet codes `0..3` of length
at most 32, `Motif.get_kmer` applied to `Motif.set_from_kmer` returns the
original string. -/
theorem c8_pack_unpack_roundtrip (x : List Nat) (hx : ∀ c ∈ x, c < 4)
    (hl : x.length ≤ 32) : getKmer x.length (setFromKmer x) = some x := by
  unfold getKmer
  rw [if_neg (by omega)]
  rw [setFromKmer_eq_packVal, unpackGo_packVal x hx]

/-- Witness for C8 at the concrete string `[0, 1, 2, 3]`. -/
theorem c8_pack_unpack_roundtrip_witness :
    (∀ c ∈ ([0, 1, 2, 3] : List Nat), c < 4) ∧ ([0, 1, 2, 3] : List Nat).length ≤ 32 ∧
    getKmer ([0, 1, 2, 3] : List Nat).length (setFromKmer [0, 1, 2, 3]) = some [0, 1, 2, 3] :=
  ⟨by decide, by decide, c8_pack_unpack_roundtrip [0, 1, 2, 3] (by decide) (by decide)⟩

/-! ### Association-list lemmas for the V1 global maps -/

lemma lookA_setA_self : ∀ (l : List (List Nat × Nat)) (m : List Nat) (v : Nat),
    lookA (setA l m v) m = some v
  | [], m, v => by simp [setA, lookA]
  | (k, w) :: t, m, v => by
    by_cases hk : k = m
    · simp [setA, hk, lookA]
    · simp only [setA, if_neg hk, lookA, if_neg hk]
      exact lookA_setA_self t m v

lemma lookA_setA_ne : ∀ (l : List (List Nat × Nat)) (m m2 : List Nat) (v : Nat),
    m2 ≠ m → lookA (setA l m v) m2 = lookA l m2
  | [], m, m2, v, hne => by
    simp [setA, lookA, Ne.symm hne]
  | (k, w) :: t, m, m2, v, hne => by
    by_cases hk : k = m
    · subst hk
      have : k ≠ m2 := fun h => hne (h.symm)
      simp [setA, lookA, this]
    · simp only [setA, if_neg hk, lookA]
      by_cases hk2 : k = m2
      · simp [hk2]
      · simp only [if_neg hk2]
        exact lookA_setA_ne t m m2 v hne

lemma setA_mem_cases : ∀ (l : List (List Nat × Nat)) (m : List Nat) (v : Nat)
    (p : List Nat × Nat), p ∈ setA l m v → p ∈ l ∨ p.1 = m
  | [], m, v, p, hp => by
    simp only [setA, List.mem_singleton] at hp
    right
    rw [hp]
  | (k, w) :: t, m, v, p, hp => by
    by_cases hk : k = m
    · simp only [setA, if_pos hk, List.mem_cons] at hp
      rcases hp with rfl | hp
      · right; exact hk
      · left; exact List.mem_cons_of_mem _ hp
    · simp only [setA, if_neg hk, List.mem_cons] at hp
      rcases hp with rfl | hp
      · left; exact List.mem_cons_self _ _
      · rcases setA_mem_cases t m v p hp with h | h
        · left; exact List.mem_cons_of_mem _ h
        · right; exact h

lemma keys_nodup_setA : ∀ (l : List (List Nat × Nat)) (m : List Nat) (v : Nat),
    (l.map Prod.fst).Nodup → ((setA l m v).map Prod.fst).Nodup
  | [], m, v, _ => by simp [setA]
  | (k, w) :: t, m, v, h => by
    simp only [List.map_cons, List.nodup_cons] at h
    by_cases hk : k = m
    · simp only [setA, if_pos hk, List.map_cons, List.nodup_cons]
      exact h
    · simp only [setA, if_neg hk, List.map_cons, List.nodup_cons]
      refine ⟨?_, keys_nodup_setA t m v h.2⟩
      intro hmem
      rcases List.mem_map.mp hmem with ⟨⟨k2, v2⟩, hk2, hfst⟩
      rcases setA_mem_cases t m v ⟨k2, v2⟩ hk2 with hin | hkey
      · exact h.1 (List.mem_map.mpr ⟨(k2, v2), hin, hfst⟩)
      · apply hk
        rw [hfst] at hkey
        exact hkey

lemma lookA_eq_of_mem : ∀ (l : List (List Nat × Nat)),
    (l.map Prod.fst).Nodup → ∀ (m : List Nat) (v : Nat), (m, v) ∈ l → lookA l m = some v
  | [], _, m, v, hm => by simp at hm
  | (k, w) :: t, h, m, v, hm => by
    simp only [List.map_cons, List.nodup_cons] at h
    rcases List.mem_cons.mp hm with heq | hmem
    · injection heq with h1 h2
      subst h1
      subst h2
      simp [lookA]
    · have hk : k ≠ m := by
        intro hkm
        subst hkm
        exact h.1 (List.mem_map.mpr ⟨(k, v), hmem, rfl⟩)
      simp only [lookA, if_neg hk]
      exact lookA_eq_of_mem t h.2 m v hmem

lemma mem_of_lookA : ∀ (l : List (List Nat × Nat)) (m : List Nat) (v : Nat),
    lookA l m = some v → (m, v) ∈ l
  | [], m, v, h => by simp [lookA] at h
  | (k, w) :: t, m, v, h => by
    by_cases hk : k = m
    · subst hk
      simp only [lookA, if_true, eq_self_iff_true, Option.some.injEq] at h
      subst h
      exact List.mem_cons_self _ _
    · simp only [lookA, if_neg hk] at h
      exact List.mem_cons_of_mem _ (mem_of_lookA t m v h)

/-! ### The per-sequence fold of `Ems1.search` -/

/-- Effect of folding one sequence's candidate set: each candidate's count
is bumped exactly once (the `last_seq_match` guard never blocks, because
all stored ids are smaller than the current one and the candidate list has
no duplicates), and `last_seq_match` is stamped with the current id. -/
lemma ems1Fold_spec (i : Nat) : ∀ (cand : List (List Nat))
    (st : List (List Nat × Nat) × List (List Nat × Nat)),
    cand.Nodup → (∀ m ∈ cand, lookA st.2 m ≠ some i) →
    (∀ m, (lookA (ems1Fold st i cand).1 m).getD 0 =
        (lookA st.1 m).getD 0 + (if m ∈ cand then 1 else 0)) ∧
    (∀ m, lookA (ems1Fold st i cand).2 m =
        if m ∈ cand then some i else lookA st.2 m) ∧
    ((st.1.map Prod.fst).Nodup → ((ems1Fold st i cand).1.map Prod.fst).Nodup)
  | [], st, _, _ => by
    refine ⟨?_, ?_, fun h => h⟩ <;> intro m <;> simp [ems1Fold]
  | c :: cs, st, hnd, hguard => by
    have hnd' : cs.Nodup := (List.nodup_cons.mp hnd).2
    have hcnot : c ∉ cs := (List.nodup_cons.mp hnd).1
    have hgc : lookA st.2 c ≠ some i := hguard c (List.mem_cons_self _ _)
    have hstep : ems1Step i st c =
        (setA st.1 c ((lookA st.1 c).getD 0 + 1), setA st.2 c i) := by
      unfold ems1Step
      rw [if_pos hgc]
    have hfold : ems1Fold st i (c :: cs) =
        ems1Fold (setA st.1 c ((lookA st.1 c).getD 0 + 1), setA st.2 c i) i cs := by
      unfold ems1Fold
      rw [List.foldl_cons, hstep]
    have hguard' : ∀ m ∈ cs,
        lookA (setA st.1 c ((lookA st.1 c).getD 0 + 1), setA st.2 c i).2 m ≠ some i := by
      intro m hm
      have hmne : m ≠ c := fun h => hcnot (h ▸ hm)
      rw [lookA_setA_ne _ _ _ _ hmne]
      exact hguard m (List.mem_cons_of_mem _ hm)
    obtain ⟨ihc, ihl, ihn⟩ := ems1Fold_spec i cs
      (setA st.1 c ((lookA st.1 c).getD 0 + 1), setA st.2 c i) hnd' hguard'
    refine ⟨?_, ?_, ?_⟩
    · intro m
      rw [hfold, ihc m]
      by_cases hmc : m = c
      · subst hmc
        rw [lookA_setA_self]
        simp [hcnot, List.mem_cons]
      · rw [lookA_setA_ne _ _ _ _ hmc]
        simp [List.mem_cons, hmc]
    · intro m
      rw [hfold, ihl m]
      by_cases hmc : m = c
      · subst hmc
        rw [lookA_setA_self]
        simp [hcnot, List.mem_cons]
      · rw [lookA_setA_ne _ _ _ _ hmc]
        simp [List.mem_cons, hmc]
    · intro hn
      rw [hfold]
      exact ihn (keys_nodup_setA _ _ _ hn)

/-- Unfolding one step of `ems1StateAfter`. -/
lemma ems1StateAfter_succ (cands : List (List (List Nat))) (i : Nat)
    (hi : i < cands.length) :
    ems1StateAfter cands (i + 1) =
      ems1Fold (ems1StateAfter cands i) (i + 1) (cands.getD i []) := by
  unfold ems1StateAfter
  rw [List.take_succ, List.getElem?_eq_getElem hi, Option.toList_some,
    List.enum_append, List.foldl_append]
  have hlen : (cands.take i).length = i := by
    rw [List.length_take]
    omega
  have hgd : cands.getD i [] = cands[i] := by
    simp [List.getD_eq_getElem?_getD, List.getElem?_eq_getElem hi]
  rw [hlen, hgd]
  rfl

/-- Invariant of the V1 global maps after `i` processed sequences. -/
lemma ems1_invariant_aux (cands : List (List (List Nat)))
    (hnd : ∀ c ∈ cands, c.Nodup) :
    ∀ i, i ≤ cands.length →
    (∀ m, (lookA (ems1StateAfter cands i).1 m).getD 0 =
        (cands.take i).countP (fun c => decide (m ∈ c))) ∧
    (∀ m j, lookA (ems1StateAfter cands i).2 m = some j → 1 ≤ j ∧ j ≤ i) ∧
    ((ems1StateAfter cands i).1.map Prod.fst).Nodup := by
  intro i
  induction i with
  | zero =>
    intro _
    refine ⟨?_, ?_, ?_⟩ <;> simp [ems1StateAfter, lookA]
  | succ i ih =>
    intro hi
    have hi' : i < cands.length := by omega
    obtain ⟨ihc, ihl, ihn⟩ := ih (by omega)
    have hgd : cands.getD i [] = cands[i] := by
      simp [List.getD_eq_getElem?_getD, List.getElem?_eq_getElem hi']
    have hcnd : (cands.getD i []).Nodup := by
      rw [hgd]
      exact hnd _ (List.getElem_mem hi')
    have hguard : ∀ m ∈ cands.getD i [],
        lookA (ems1StateAfter cands i).2 m ≠ some (i + 1) := by
      intro m _ hcontra
      have := ihl m (i + 1) hcontra
      omega
    obtain ⟨fc, fl, fn⟩ := ems1Fold_spec (i + 1) (cands.getD i [])
      (ems1StateAfter cands i) hcnd hguard
    rw [ems1StateAfter_succ cands i hi']
    refine ⟨?_, ?_, fn ihn⟩
    · intro m
      rw [fc m, ihc m, List.take_succ, List.getElem?_eq_getElem hi',
        Option.toList_some, List.countP_append]
      simp [List.countP_cons, List.getElem?_eq_getElem hi', hgd]
    · intro m j hl
      rw [fl m] at hl
      by_cases hm : m ∈ cands.getD i []
      · rw [if_pos hm] at hl
        injection hl with hj
        omega
      · rw [if_neg hm] at hl
        have := ihl m j hl
        omega

/-! ### Sortedness of the model of `list.sort()` -/

lemma mem_insLex (a b : List Nat) : ∀ (l : List (List Nat)),
    b ∈ insLex a l ↔ b = a ∨ b ∈ l
  | [] => by simp [insLex]
  | c :: t => by
    unfold insLex
    by_cases h : lexLe a c
    · simp [h, List.mem_cons]
    · simp only [if_neg h, List.mem_cons, mem_insLex a b t]
      tauto

lemma mem_sortLex (b : List Nat) : ∀ (l : List (List Nat)),
    b ∈ sortLex l ↔ b ∈ l
  | [] => by simp [sortLex]
  | c :: t => by
    show b ∈ insLex c (sortLex t) ↔ _
    rw [mem_insLex, mem_sortLex b t]
    simp [List.mem_cons]

lemma lexLe_total : ∀ a b : List Nat, lexLe a b = true ∨ lexLe b a = true
  | [], _ => Or.inl rfl
  | _ :: _, [] => Or.inr rfl
  | a :: x, b :: y => by
    unfold lexLe
    rcases Nat.lt_trichotomy a b with h | h | h
    · left
      simp [h]
    · subst h
      simp only [lt_irrefl, if_false]
      exact lexLe_total x y
    · right
      simp [h]

lemma lexLe_trans : ∀ a b c : List Nat,
    lexLe a b = true → lexLe b c = true → lexLe a c = true
  | [], _, _, _, _ => rfl
  | _ :: _, [], _, hab, _ => by simp [lexLe] at hab
  | _ :: _, _ :: _, [], _, hbc => by simp [lexLe] at hbc
  | a :: x, b :: y, c :: z, hab, hbc => by
    unfold lexLe at hab hbc ⊢
    rcases Nat.lt_trichotomy a b with h1 | h1 | h1
    · rcases Nat.lt_trichotomy b c with h2 | h2 | h2
      · simp [show a < c by omega]
      · subst h2
        simp [h1]
      · rw [if_neg (by omega), if_pos h2] at hbc
        exact absurd hbc (by simp)
    · subst h1
      rcases Nat.lt_trichotomy a c with h2 | h2 | h2
      · simp [h2]
      · subst h2
        simp only [lt_irrefl, if_false] at hab hbc ⊢
        exact lexLe_trans x y z hab hbc
      · rw [if_neg (by omega), if_pos h2] at hbc
        exact absurd hbc (by simp)
    · rw [if_neg (by omega), if_pos h1] at hab
      exact absurd hab (by simp)

lemma sorted_insLex (a : List Nat) : ∀ (l : List (List Nat)),
    l.Pairwise (fun x y => lexLe x y = true) →
    (insLex a l).Pairwise (fun x y => lexLe x y = true)
  | [], _ => by simp [insLex]
  | b :: t, h => by
    rcases List.pairwise_cons.mp h with ⟨hb, ht⟩
    unfold insLex
    by_cases hab : lexLe a b
    · rw [if_pos hab]
      refine List.pairwise_cons.mpr ⟨?_, h⟩
      intro x hx
      rcases List.mem_cons.mp hx with rfl | hx
      · exact hab
      · exact lexLe_trans a b x hab (hb x hx)
    · rw [if_neg hab]
      refine List.pairwise_cons.mpr ⟨?_, sorted_insLex a t ht⟩
      intro x hx
      rcases (mem_insLex a x _).mp hx with hxa | hx
      · rw [hxa]
        rcases lexLe_total a b with h1 | h1
        · exact absurd h1 hab
        · exact h1
      · exact hb x hx

lemma sorted_sortLex : ∀ l : List (List Nat),
    (sortLex l).Pairwise (fun x y => lexLe x y = true)
  | [] => by simp [sortLex]
  | c :: t => by
    show (insLex c (sortLex t)).Pairwise _
    exact sorted_insLex c _ (sorted_sortLex t)

/-- Membership in the V1 output list in terms of the final counts map. -/
lemma mem_ems1Output (cands : List (List (List Nat)))
    (hn : ((ems1StateAfter cands cands.length).1.map Prod.fst).Nodup)
    (m : List Nat) :
    m ∈ ems1Output cands ↔
      ((lookA (ems1StateAfter cands cands.length).1 m).getD 0 = cands.length ∧
        0 < cands.length) := by
  unfold ems1Output
  rw [mem_sortLex]
  simp only [List.mem_map, List.mem_filter]
  constructor
  · rintro ⟨⟨m2, v⟩, ⟨hmem, hv⟩, rfl⟩
    have hveq : v = cands.length := by simpa using hv
    subst hveq
    have hlook := lookA_eq_of_mem _ hn _ _ hmem
    refine ⟨by rw [hlook]; rfl, ?_⟩
    rcases Nat.eq_zero_or_pos cands.length with h0 | h
    · exfalso
      have hcnil : cands = [] := List.length_eq_zero.mp h0
      subst hcnil
      simp [ems1StateAfter] at hmem
    · exact h
  · rintro ⟨hcount, hpos⟩
    have hsome : lookA (ems1StateAfter cands cands.length).1 m =
        some cands.length := by
      cases hl : lookA (ems1StateAfter cands cands.length).1 m with
      | none =>
        rw [hl] at hcount
        simp at hcount
        omega
      | some v =>
        rw [hl] at hcount
        simp at hcount
        rw [hcount]
    exact ⟨(m, cands.length), ⟨mem_of_lookA _ _ _ hsome, by simp⟩, rfl⟩

/-! ## Claim C9 — V1 counting invariant and output -/

/-- C9: after processing sequence `i` (1-based ids), the count stored for
a motif equals the number of sequences among the first `i` whose candidate
set contains it, every stored `last_seq_match` id is in `1..i`, and the
final output is exactly the set of motifs whose count equals the number of
sequences, lexicographically sorted. `cands` are the per-sequence
candidate sets (each duplicate-free, as produced by the Python `set`). -/
theorem c9_v1_counting_invariant (cands : List (List (List Nat)))
    (hnd : ∀ c ∈ cands, c.Nodup) (i : Nat) (hi : i ≤ cands.length) :
    (∀ m, (lookA (ems1StateAfter cands i).1 m).getD 0 =
        (cands.take i).countP (fun c => decide (m ∈ c))) ∧
    (∀ m j, lookA (ems1StateAfter cands i).2 m = some j → 1 ≤ j ∧ j ≤ i) ∧
    (∀ m, m ∈ ems1Output cands ↔
        ((lookA (ems1StateAfter cands cands.length).1 m).getD 0 = cands.length ∧
          0 < cands.length)) ∧
    (ems1Output cands).Pairwise (fun a b => lexLe a b = true) := by
  obtain ⟨hc, hl, -⟩ := ems1_invariant_aux cands hnd i hi
  obtain ⟨-, -, hnN⟩ := ems1_invariant_aux cands hnd cands.length (le_refl _)
  exact ⟨hc, hl, fun m => mem_ems1Output cands hnN m, sorted_sortLex _⟩

/-- Witness for C9 with two concrete sequences' candidate sets
`{[0]}` and `{[0], [1]}`, at `i = 2`. -/
theorem c9_v1_counting_invariant_witness :
    (∀ c ∈ [[[0]], [[0], [1]]], List.Nodup c) ∧
    2 ≤ ([[[0]], [[0], [1]]] : List (List (List Nat))).length ∧
    ((∀ m, (lookA (ems1StateAfter [[[0]], [[0], [1]]] 2).1 m).getD 0 =
        (([[[0]], [[0], [1]]] : List (List (List Nat))).take 2).countP
          (fun c => decide (m ∈ c))) ∧
    (∀ m j, lookA (ems1StateAfter [[[0]], [[0], [1]]] 2).2 m = some j →
        1 ≤ j ∧ j ≤ 2) ∧
    (∀ m, m ∈ ems1Output [[[0]], [[0], [1]]] ↔
        ((lookA (ems1StateAfter [[[0]], [[0], [1]]]
            ([[[0]], [[0], [1]]] : List (List (List Nat))).length).1 m).getD 0 =
          ([[[0]], [[0], [1]]] : List (List (List Nat))).length ∧
          0 < ([[[0]], [[0], [1]]] : List (List (List Nat))).length)) ∧
    (ems1Output [[[0]], [[0], [1]]]).Pairwise (fun a b => lexLe a b = true)) :=
  ⟨by decide, by decide,
    c9_v1_counting_invariant [[[0]], [[0], [1]]] (by decide) 2 (by decide)⟩

/-! ## Claim C10 — packing truncates to the low two bits -/

/-- C10: `set_from_kmer` keeps only `char_code & 0b11`, so replacing the
wildcard code `4` at any position by `0` leaves the packed integer
unchanged; packing is therefore not injective on wildcard strings, and a
wildcard position packs exactly like the letter `A` (`0`). -/
theorem c10_wildcard_packs_as_letter0 :
    (∀ (x : List Nat) (i : Nat), i < x.length → x.getD i 0 = WILDCARD →
      setFromKmer (x.set i 0) = setFromKmer x) ∧
    setFromKmer [WILDCARD] = setFromKmer [0] ∧ ([WILDCARD] : List Nat) ≠ [0] := by
  refine ⟨?_, by decide, by decide⟩
  intro x i hi hw
  unfold setFromKmer
  apply packGo_congr
  · simp
  · intro j
    rcases eq_or_ne j i with rfl | hne
    · have hset : (x.set j 0).getD j 0 = 0 := by
        have : (x.set j 0)[j]? = some 0 := by
          rw [List.getElem?_set_self (by simpa using hi)]
        simp [List.getD, this]
      rw [hset, hw]
      decide
    · have hset : (x.set i 0).getD j 0 = x.getD j 0 := by
        have : (x.set i 0)[j]? = x[j]? := List.getElem?_set_ne (by omega)
        simp [List.getD, this]
      rw [hset]

/-- Witness for C10 at `x = [4, 2]`, `i = 0`. -/
theorem c10_wildcard_packs_as_letter0_witness :
    0 < ([4, 2] : List Nat).length ∧ ([4, 2] : List Nat).getD 0 0 = WILDCARD ∧
    setFromKmer (([4, 2] : List Nat).set 0 0) = setFromKmer [4, 2] :=
  ⟨by decide, by decide,
    c10_wildcard_packs_as_letter0.1 [4, 2] 0 (by decide) (by decide)⟩

end EMS
